import Mathlib

/-!
Verification of the task-list core of the `my-todo-app` repository.

The source (`src/unnamed/part_000`, a React component `TodoApp`) manages an
ordered list of todos held in component state together with an input box, an
editing cursor (`editingId`, `editingText`) and an `isLoaded` flag, and
synchronizes the list with browser local storage under the key `todos` via
`JSON.stringify` / `JSON.parse`.

Modelling choices, stated once here:
* JavaScript numbers appearing in the program are integers (task ids come from
  `Date.now()` or from the default list `1,2,3`), so JSON numbers are modelled
  as `Int`.  Fractional numerals, which `JSON.parse` would also accept but
  which `JSON.stringify` never produces for this program's data, are outside
  the model, as is insignificant whitespace in payloads.
* `Date.now()` is an environment input; each `add` step takes the timestamp as
  an explicit argument `now`.
* `jsTrim` below stands in for JavaScript `trim()` (both strip ASCII
  whitespace; the exotic Unicode space characters JavaScript additionally
  strips never appear in the claims).
* Out-of-range indices passed to the move operations are excluded by the spec
  ("out-of-range access is undefined behavior / must be guarded before
  invoking"); where the source would corrupt the array with `undefined`
  entries, the model returns the list unchanged.  No claim exercises that
  branch.
-/

/-- Strip leading and trailing whitespace from a character list. -/
def trimList (cs : List Char) : List Char :=
  ((cs.dropWhile Char.isWhitespace).reverse.dropWhile Char.isWhitespace).reverse

/-- JavaScript `String.prototype.trim()` (over ASCII whitespace; see the
header note).  Defined by structural recursion so that concrete instances
compute. -/
def jsTrim (s : String) : String := String.mk (trimList s.data)

/-- `interface Todo` from the source: id, text, completed. -/
structure Todo where
  id : Int
  text : String
  completed : Bool
deriving DecidableEq, Repr

/-- The component state of `TodoApp` that the list operations touch:
`todos`, `inputText`, `editingId`, `editingText`.  The `isLoaded` flag lives
in the session model below. -/
structure AppState where
  todos : List Todo
  inputText : String
  editingId : Option Int
  editingText : String
deriving DecidableEq, Repr

/-- `setDefaultTodos`: the fixed three-item default list. -/
def defaultTodos : List Todo :=
  [ ⟨1, "Claudeでアプリを作成", true⟩,
    ⟨2, "Vercelにデプロイ", false⟩,
    ⟨3, "アプリを公開", false⟩ ]

/-- `addTodo`: if the trimmed input text is non-empty, append a new todo with
id `Date.now()` (the `now` argument), the trimmed text, `completed = false`,
and clear the input box; otherwise do nothing. -/
def addTodo (now : Int) (s : AppState) : AppState :=
  if jsTrim s.inputText ≠ "" then
    { s with
      todos := s.todos ++ [⟨now, jsTrim s.inputText, false⟩],
      inputText := "" }
  else s

/-- The per-element function of `toggleTodo`'s `map`:
`todo.id === id ? { ...todo, completed: !todo.completed } : todo`. -/
def toggleOne (id : Int) (t : Todo) : Todo :=
  if t.id = id then { t with completed := !t.completed } else t

/-- `toggleTodo`: flip `completed` on every todo whose id matches. -/
def toggleTodo (id : Int) (todos : List Todo) : List Todo :=
  todos.map (toggleOne id)

/-- `deleteTodo`: drop todos whose id matches; if the editing cursor points at
that id, clear the cursor. -/
def deleteTodo (id : Int) (s : AppState) : AppState :=
  { s with
    todos := s.todos.filter (fun t => t.id ≠ id),
    editingId := if s.editingId = some id then none else s.editingId,
    editingText := if s.editingId = some id then "" else s.editingText }

/-- `moveTodoUp`: for `index > 0`, swap the elements at `index` and
`index - 1`.  The source guards only `index > 0`; an `index ≥ length` would
hit JavaScript `undefined` holes (undefined behavior per the spec) and is
modelled as a no-op. -/
def moveTodoUp (index : Nat) (todos : List Todo) : List Todo :=
  if index > 0 then
    match todos[index - 1]?, todos[index]? with
    | some a, some b => (todos.set (index - 1) b).set index a
    | _, _ => todos
  else todos

/-- `moveTodoDown`: for `index < length - 1`, swap the elements at `index` and
`index + 1`.  The JavaScript guard `index < prevTodos.length - 1` (over
possibly negative JS numbers) coincides with `index + 1 < length` for the
natural-number indices the renderer supplies. -/
def moveTodoDown (index : Nat) (todos : List Todo) : List Todo :=
  if index + 1 < todos.length then
    match todos[index]?, todos[index + 1]? with
    | some a, some b => (todos.set index b).set (index + 1) a
    | _, _ => todos
  else todos

/-- `startEditing`: set the editing cursor. -/
def startEditing (id : Int) (currentText : String) (s : AppState) : AppState :=
  { s with editingId := some id, editingText := currentText }

/-- `saveEdit`: if the trimmed draft is non-empty and a cursor is active,
overwrite the text of every todo whose id matches the cursor with the trimmed
draft; in every case clear the cursor. -/
def saveEdit (s : AppState) : AppState :=
  { s with
    todos :=
      if jsTrim s.editingText ≠ "" ∧ s.editingId ≠ none then
        s.todos.map (fun t =>
          if some t.id = s.editingId then { t with text := jsTrim s.editingText } else t)
      else s.todos,
    editingId := none,
    editingText := "" }

/-- `cancelEdit`: clear the cursor without touching the list. -/
def cancelEdit (s : AppState) : AppState :=
  { s with editingId := none, editingText := "" }

/-- `clearAllTodos`, confirmed branch: empty the list and clear the cursor. -/
def clearAllTodos (s : AppState) : AppState :=
  { s with todos := [], editingId := none, editingText := "" }

/-- `resetToDefault`, confirmed branch: restore the default list and clear the
cursor. -/
def resetToDefault (s : AppState) : AppState :=
  { s with todos := defaultTodos, editingId := none, editingText := "" }

/-- The id-uniqueness invariant: the ids of the list are pairwise distinct. -/
def IdsNodup (todos : List Todo) : Prop :=
  (todos.map Todo.id).Nodup

instance : DecidablePred IdsNodup := fun todos =>
  inferInstanceAs (Decidable (todos.map Todo.id).Nodup)

/-! ## The persisted payload: a model of JSON

The program persists `JSON.stringify(todos)` under the key `todos` and reads
it back with `JSON.parse`.  Both are standard-library functions; they are
modelled here by an executable printer and parser over a JSON value tree
(numbers restricted to integers, see the header). -/

mutual
/-- A JSON value (numbers restricted to integers). -/
inductive Json where
  | null
  | bool (b : Bool)
  | num (n : Int)
  | str (s : String)
  | arr (elems : JsonList)
  | obj (members : JsonMembers)
deriving DecidableEq, Repr

/-- The elements of a JSON array. -/
inductive JsonList where
  | nil
  | cons (hd : Json) (tl : JsonList)
deriving DecidableEq, Repr

/-- The members of a JSON object, in insertion order. -/
inductive JsonMembers where
  | nil
  | cons (key : String) (val : Json) (tl : JsonMembers)
deriving DecidableEq, Repr
end

/-- The double-quote character. -/
def quoteChar : Char := Char.ofNat 34

/-- The backslash character. -/
def backslashChar : Char := Char.ofNat 92

/-- The opening-brace character. -/
def lbraceChar : Char := Char.ofNat 123

/-- The closing-brace character. -/
def rbraceChar : Char := Char.ofNat 125

/-- The decimal digit character for `d < 10`. -/
def digitChar (d : Nat) : Char := Char.ofNat (48 + d)

/-- Lower-case hexadecimal digit character for `d < 16`. -/
def hexDigitChar (d : Nat) : Char :=
  if d < 10 then Char.ofNat (48 + d) else Char.ofNat (87 + d)

/-- The characters of the keyword `null`. -/
def litNull : List Char := ['n', 'u', 'l', 'l']

/-- The characters of the keyword `true`. -/
def litTrue : List Char := ['t', 'r', 'u', 'e']

/-- The characters of the keyword `false`. -/
def litFalse : List Char := ['f', 'a', 'l', 's', 'e']

/-- Decimal numeral of a natural number, most significant digit first. -/
def printNat (n : Nat) : List Char :=
  if n = 0 then ['0'] else (Nat.digits 10 n).reverse.map digitChar

/-- Decimal numeral of an integer, as `JSON.stringify` prints one. -/
def printInt (n : Int) : List Char :=
  if n < 0 then '-' :: printNat n.natAbs else printNat n.natAbs

/-- The escape sequence `JSON.stringify` uses for one character inside a
string literal: quote and backslash get two-character escapes, control
characters get `\b`, `\t`, `\n`, `\f`, `\r` or `\u00XX`, everything else is
emitted verbatim. -/
def escChar (c : Char) : List Char :=
  if c = quoteChar then [backslashChar, quoteChar]
  else if c = backslashChar then [backslashChar, backslashChar]
  else if c.toNat < 32 then
    if c = '\n' then [backslashChar, 'n']
    else if c = '\t' then [backslashChar, 't']
    else if c = '\r' then [backslashChar, 'r']
    else if c.toNat = 8 then [backslashChar, 'b']
    else if c.toNat = 12 then [backslashChar, 'f']
    else [backslashChar, 'u', '0', '0',
          hexDigitChar (c.toNat / 16), hexDigitChar (c.toNat % 16)]
  else [c]

/-- Escape every character of a string body. -/
def escapeList : List Char → List Char
  | [] => []
  | c :: cs => escChar c ++ escapeList cs

/-- A JSON string literal: quote, escaped body, quote. -/
def printString (s : String) : List Char :=
  quoteChar :: (escapeList s.data ++ [quoteChar])

mutual
/-- Print a JSON value the way `JSON.stringify` does (no whitespace). -/
def printValue : Json → List Char
  | .null => litNull
  | .bool true => litTrue
  | .bool false => litFalse
  | .num n => printInt n
  | .str s => printString s
  | .arr l => '[' :: (printElems l ++ [']'])
  | .obj m => lbraceChar :: (printMembers m ++ [rbraceChar])

/-- Print array elements, comma separated. -/
def printElems : JsonList → List Char
  | .nil => []
  | .cons j tl => printValue j ++ printElemsSep tl

/-- Print the remaining array elements, each preceded by a comma. -/
def printElemsSep : JsonList → List Char
  | .nil => []
  | .cons j tl => ',' :: (printValue j ++ printElemsSep tl)

/-- Print object members, comma separated. -/
def printMembers : JsonMembers → List Char
  | .nil => []
  | .cons k v tl => printString k ++ (':' :: (printValue v ++ printMembersSep tl))

/-- Print the remaining object members, each preceded by a comma. -/
def printMembersSep : JsonMembers → List Char
  | .nil => []
  | .cons k v tl =>
      ',' :: (printString k ++ (':' :: (printValue v ++ printMembersSep tl)))
end

/-- `JSON.stringify` on a value tree. -/
def stringifyJson (j : Json) : String := String.mk (printValue j)

/-- Numeric value of a decimal digit character. -/
def charDigitVal (c : Char) : Nat := c.toNat - 48

/-- Accumulate a decimal numeral, most significant digit first. -/
def charsToNat (cs : List Char) : Nat :=
  cs.foldl (fun acc c => acc * 10 + charDigitVal c) 0

/-- Parse a natural numeral.  A leading `0` is the whole numeral (so `01`
leaves `1` unconsumed and a surrounding parse fails, as in JSON). -/
def parseNatNum : List Char → Option (Nat × List Char)
  | [] => none
  | c :: rest =>
    if c = '0' then some (0, rest)
    else if c.isDigit then
      some (charsToNat (List.takeWhile Char.isDigit (c :: rest)),
            List.dropWhile Char.isDigit (c :: rest))
    else none

/-- Numeric value of a hexadecimal digit character. -/
def hexVal (c : Char) : Option Nat :=
  if '0' ≤ c ∧ c ≤ '9' then some (c.toNat - 48)
  else if 'a' ≤ c ∧ c ≤ 'f' then some (c.toNat - 87)
  else if 'A' ≤ c ∧ c ≤ 'F' then some (c.toNat - 55)
  else none

/-- Resolve a single-character escape sequence. -/
def unescChar (e : Char) : Option Char :=
  if e = quoteChar then some quoteChar
  else if e = backslashChar then some backslashChar
  else if e = '/' then some '/'
  else if e = 'n' then some '\n'
  else if e = 't' then some '\t'
  else if e = 'r' then some '\r'
  else if e = 'b' then some (Char.ofNat 8)
  else if e = 'f' then some (Char.ofNat 12)
  else none

/-- Parse a string body after the opening quote, up to and including the
closing quote.  The fuel bounds the number of parsed source characters; one
unit is spent per produced character, so `input length + 1` always
suffices. -/
def parseStringBody : Nat → List Char → Option (List Char × List Char)
  | 0, _ => none
  | _ + 1, [] => none
  | fuel + 1, c :: rest =>
    if c = quoteChar then some ([], rest)
    else if c = backslashChar then
      match rest with
      | [] => none
      | e :: rest2 =>
        if e = 'u' then
          match rest2 with
          | h1 :: h2 :: h3 :: h4 :: rest3 =>
            match hexVal h1, hexVal h2, hexVal h3, hexVal h4 with
            | some v1, some v2, some v3, some v4 =>
              match parseStringBody fuel rest3 with
              | some (cs, r) =>
                  some (Char.ofNat (((v1 * 16 + v2) * 16 + v3) * 16 + v4) :: cs, r)
              | none => none
            | _, _, _, _ => none
          | _ => none
        else
          match unescChar e with
          | some c2 =>
            match parseStringBody fuel rest2 with
            | some (cs, r) => some (c2 :: cs, r)
            | none => none
          | none => none
    else
      match parseStringBody fuel rest with
      | some (cs, r) => some (c :: cs, r)
      | none => none

mutual
/-- Parse one JSON value.  Fuel decreases on every recursive call; the
top-level entry point supplies far more fuel than any input can consume. -/
def parseValue : Nat → List Char → Option (Json × List Char)
  | 0, _ => none
  | _ + 1, [] => none
  | fuel + 1, c :: rest =>
    if c = 'n' then
      match rest with
      | 'u' :: 'l' :: 'l' :: r => some (.null, r)
      | _ => none
    else if c = 't' then
      match rest with
      | 'r' :: 'u' :: 'e' :: r => some (.bool true, r)
      | _ => none
    else if c = 'f' then
      match rest with
      | 'a' :: 'l' :: 's' :: 'e' :: r => some (.bool false, r)
      | _ => none
    else if c = quoteChar then
      match parseStringBody (rest.length + 1) rest with
      | some (cs, r) => some (.str (String.mk cs), r)
      | none => none
    else if c = '[' then
      match parseElems fuel rest with
      | some (l, r) => some (.arr l, r)
      | none => none
    else if c = lbraceChar then
      match parseMembers fuel rest with
      | some (m, r) => some (.obj m, r)
      | none => none
    else if c = '-' then
      match parseNatNum rest with
      | some (nv, r) => some (.num (-(nv : Int)), r)
      | none => none
    else if c.isDigit then
      match parseNatNum (c :: rest) with
      | some (nv, r) => some (.num (nv : Int), r)
      | none => none
    else none

/-- Parse array elements right after `[`. -/
def parseElems : Nat → List Char → Option (JsonList × List Char)
  | 0, _ => none
  | _ + 1, [] => none
  | fuel + 1, c :: rest =>
    if c = ']' then some (.nil, rest)
    else
      match parseValue fuel (c :: rest) with
      | some (j, r) =>
        match parseElemsTail fuel r with
        | some (tl, r2) => some (.cons j tl, r2)
        | none => none
      | none => none

/-- Parse the rest of an array after a complete element. -/
def parseElemsTail : Nat → List Char → Option (JsonList × List Char)
  | 0, _ => none
  | _ + 1, [] => none
  | fuel + 1, c :: rest =>
    if c = ']' then some (.nil, rest)
    else if c = ',' then
      match parseValue fuel rest with
      | some (j, r) =>
        match parseElemsTail fuel r with
        | some (tl, r2) => some (.cons j tl, r2)
        | none => none
      | none => none
    else none

/-- Parse object members right after the opening brace. -/
def parseMembers : Nat → List Char → Option (JsonMembers × List Char)
  | 0, _ => none
  | _ + 1, [] => none
  | fuel + 1, c :: rest =>
    if c = rbraceChar then some (.nil, rest)
    else if c = quoteChar then
      match parseStringBody (rest.length + 1) rest with
      | some (ks, r) =>
        match r with
        | ':' :: r2 =>
          match parseValue fuel r2 with
          | some (v, r3) =>
            match parseMembersTail fuel r3 with
            | some (tl, r4) => some (.cons (String.mk ks) v tl, r4)
            | none => none
          | none => none
        | _ => none
      | none => none
    else none

/-- Parse the rest of an object after a complete member. -/
def parseMembersTail : Nat → List Char → Option (JsonMembers × List Char)
  | 0, _ => none
  | _ + 1, [] => none
  | fuel + 1, c :: rest =>
    if c = rbraceChar then some (.nil, rest)
    else if c = ',' then
      match rest with
      | c2 :: rest2 =>
        if c2 = quoteChar then
          match parseStringBody (rest2.length + 1) rest2 with
          | some (ks, r) =>
            match r with
            | ':' :: r2 =>
              match parseValue fuel r2 with
              | some (v, r3) =>
                match parseMembersTail fuel r3 with
                | some (tl, r4) => some (.cons (String.mk ks) v tl, r4)
                | none => none
              | none => none
            | _ => none
          | none => none
        else none
      | [] => none
    else none
end

/-- `JSON.parse` on a whole payload: the parse must consume the entire
input, otherwise it throws (modelled as `none`).  The fuel `10·n + 10` is a
generous bound: the parser consumes at least one character every two fuel
units. -/
def parseJson (s : String) : Option Json :=
  match parseValue (10 * s.data.length + 10) s.data with
  | some (j, []) => some j
  | _ => none

/-! ## Encoding the task list, the initial load, and the session -/

/-- The JSON encoding of one todo, fields in the order of the object literal
in `addTodo` / `setDefaultTodos`: `id`, `text`, `completed`. -/
def todoToJson (t : Todo) : Json :=
  .obj (.cons "id" (.num t.id)
    (.cons "text" (.str t.text)
      (.cons "completed" (.bool t.completed) .nil)))

/-- The JSON elements of an encoded task list. -/
def listToJsonList : List Todo → JsonList
  | [] => .nil
  | t :: ts => .cons (todoToJson t) (listToJsonList ts)

/-- The JSON encoding of a task list. -/
def tasksToJson (ts : List Todo) : Json := .arr (listToJsonList ts)

/-- `JSON.stringify(todos)`: the payload the persistence effect writes. -/
def encodeTasks (ts : List Todo) : String := stringifyJson (tasksToJson ts)

/-- The typed reading of a parsed payload at the TypeScript type `Todo`.
The source performs no runtime shape check (spec §9 notes this); this
definition only serves to state what a well-shaped payload is and to express
the round-trip property. -/
def todoFromJson : Json → Option Todo
  | .obj (.cons k1 (.num i) (.cons k2 (.str s) (.cons k3 (.bool b) .nil))) =>
      if k1 = "id" ∧ k2 = "text" ∧ k3 = "completed" then some ⟨i, s, b⟩ else none
  | _ => none

/-- The typed reading of the elements of an encoded task list. -/
def todosFromJsonList : JsonList → Option (List Todo)
  | .nil => some []
  | .cons j tl =>
    match todoFromJson j, todosFromJsonList tl with
    | some t, some ts => some (t :: ts)
    | _, _ => none

/-- The typed reading of a parsed payload at `Todo[]`. -/
def tasksFromJson : Json → Option (List Todo)
  | .arr l => todosFromJsonList l
  | _ => none

/-- Parse and read a payload as a task list. -/
def decodeTasks (payload : String) : Option (List Todo) :=
  (parseJson payload).bind tasksFromJson

/-- The value the initial-load effect stores into `todos`, as a JSON tree:
absent payload → default list; `JSON.parse` throws → default list (the
`catch` branch); otherwise the parsed value verbatim — the source applies no
shape validation whatsoever. -/
def loadResult (payload : Option String) : Json :=
  match payload with
  | none => tasksToJson defaultTodos
  | some s =>
    match parseJson s with
    | some j => j
    | none => tasksToJson defaultTodos

/-- One user intent, named after the handlers of the source; `input` and
`draft` are the controlled-input updates (`setInputText`, `setEditingText`),
`add` carries the `Date.now()` value of its moment, and `clearAll` / `reset`
are the confirmed branches of `clearAllTodos` / `resetToDefault`. -/
inductive Event where
  | input (text : String)
  | add (now : Int)
  | toggle (id : Int)
  | remove (id : Int)
  | moveUp (index : Nat)
  | moveDown (index : Nat)
  | startEdit (id : Int) (currentText : String)
  | draft (text : String)
  | commitEdit
  | cancel
  | clearAll
  | reset
deriving DecidableEq, Repr

/-- The state transition of one intent. -/
def applyEvent : Event → AppState → AppState
  | .input t, s => { s with inputText := t }
  | .add now, s => addTodo now s
  | .toggle id, s => { s with todos := toggleTodo id s.todos }
  | .remove id, s => deleteTodo id s
  | .moveUp i, s => { s with todos := moveTodoUp i s.todos }
  | .moveDown i, s => { s with todos := moveTodoDown i s.todos }
  | .startEdit id txt, s => startEditing id txt s
  | .draft t, s => { s with editingText := t }
  | .commitEdit, s => saveEdit s
  | .cancel, s => cancelEdit s
  | .clearAll, s => clearAllTodos s
  | .reset, s => resetToDefault s

/-- A session: the component state, the `isLoaded` flag, and the content of
`localStorage.getItem('todos')`. -/
structure Session where
  state : AppState
  isLoaded : Bool
  storage : Option String
deriving DecidableEq, Repr

/-- The persistence `useEffect`: `if (isLoaded) localStorage.setItem('todos',
JSON.stringify(todos))`. -/
def persistEffect (s : Session) : Session :=
  if s.isLoaded then { s with storage := some (encodeTasks s.state.todos) } else s

/-- Payloads representable in the typed state: absent, unparseable (the
recovered decode failure), or well shaped.  A parseable payload of the wrong
shape makes the source store a raw non-`Todo[]` value into `todos` (spec §9's
noted laxness), which the typed session model cannot follow. -/
def storageOk : Option String → Bool
  | none => true
  | some s =>
    match parseJson s with
    | none => true
    | some j => (tasksFromJson j).isSome

/-- The task list the initial-load effect produces, for a `storageOk`
payload.  On the excluded wrong-shape branch the source keeps the raw parsed
value; the default used here is never relied on — session theorems assume
`storageOk`. -/
def loadedTodos (st : Option String) : List Todo :=
  match st with
  | none => defaultTodos
  | some s =>
    match parseJson s with
    | none => defaultTodos
    | some j => (tasksFromJson j).getD defaultTodos

/-- The initial-load `useEffect`: populate `todos` and set the flag. -/
def loadEffect (s : Session) : Session :=
  { s with state := { s.state with todos := loadedTodos s.storage }, isLoaded := true }

/-- The state of the first render: empty list, flag down. -/
def initialSession (st : Option String) : Session :=
  { state := { todos := [], inputText := "", editingId := none, editingText := "" },
    isLoaded := false,
    storage := st }

/-- Mount: on the first render both effects run against the pre-load state —
the persistence effect sees `isLoaded = false` and must not write (that
no-write fact is claim C4's first conjunct) — then the load effect fills the
list and raises the flag, and the re-render runs the persistence effect
again. -/
def mount (st : Option String) : Session :=
  persistEffect (loadEffect (persistEffect (initialSession st)))

/-- One processed intent: the handler updates the state, React re-renders,
and the persistence effect runs before the next intent is accepted.  When the
handler leaves `todos` untouched the effect does not re-run; that coincides
with running it, since it would rewrite the stored value unchanged. -/
def stepEvent (s : Session) (e : Event) : Session :=
  persistEffect { s with state := applyEvent e s.state }

/-- A whole session: mount, then the intents in order. -/
def runSession (st : Option String) (events : List Event) : Session :=
  events.foldl stepEvent (mount st)

/-- `cs` does not start with a character satisfying `p` (used to state that a
numeral's trailing context cannot extend the numeral). -/
def headFails (p : Char → Bool) (cs : List Char) : Prop :=
  ∀ c, cs.head? = some c → p c = false

/-- Swapping adjacent entries `k`, `k+1` by two writes is a permutation. -/
theorem set_swap_adjacent_perm {α : Type} (l : List α) (k : Nat) (a b : α)
    (ha : l[k]? = some a) (hb : l[k + 1]? = some b) :
    ((l.set k b).set (k + 1) a).Perm l := by
  induction l generalizing k with
  | nil => simp at ha
  | cons x l ih =>
    cases k with
    | zero =>
      cases l with
      | nil => simp at hb
      | cons y l' =>
        simp only [List.getElem?_cons_zero, Option.some.injEq] at ha
        simp only [List.getElem?_cons_succ, List.getElem?_cons_zero,
          Option.some.injEq] at hb
        subst ha
        subst hb
        simpa using List.Perm.swap x y l'
    | succ k' =>
      simp only [List.getElem?_cons_succ] at ha hb
      simpa using (ih k' ha hb).cons x

/-- `toggleOne` and the `saveEdit` rewrite keep ids. -/
theorem map_id_comp_toggleOne (i : Int) : Todo.id ∘ toggleOne i = Todo.id := by
  funext t; simp only [Function.comp_apply, toggleOne]; split <;> rfl

/-- Claim C2: `add` is a no-op on blank input, otherwise appends exactly one
new incomplete task carrying the trimmed text. -/
theorem addTodo_spec (s : AppState) (now : Int) :
    (jsTrim s.inputText = "" → addTodo now s = s) ∧
    (jsTrim s.inputText ≠ "" →
      (addTodo now s).todos = s.todos ++ [⟨now, jsTrim s.inputText, false⟩] ∧
      (addTodo now s).todos.length = s.todos.length + 1) := by
  constructor
  · intro h; simp [addTodo, h]
  · intro h; simp [addTodo, h]

theorem addTodo_spec_witness :
    (addTodo 9 ⟨[], "hi ", none, ""⟩).todos = [⟨9, jsTrim "hi ", false⟩] ∧
    addTodo 9 ⟨[], "  ", none, ""⟩ = ⟨[], "  ", none, ""⟩ :=
  ⟨((addTodo_spec ⟨[], "hi ", none, ""⟩ 9).2 (by decide)).1,
   (addTodo_spec ⟨[], "  ", none, ""⟩ 9).1 (by decide)⟩

/-- Claim C5: `toggle` flips the matching task's flag pointwise, is a no-op
when the id is absent, keeps length and order, and is an involution. -/
theorem toggleTodo_spec (i : Int) (l : List Todo) :
    toggleTodo i (toggleTodo i l) = l ∧
    ((∀ t ∈ l, t.id ≠ i) → toggleTodo i l = l) ∧
    (toggleTodo i l).length = l.length ∧
    (∀ j : Nat, (toggleTodo i l)[j]? = (l[j]?).map (toggleOne i)) ∧
    (∀ t : Todo, t.id = i → toggleOne i t = { t with completed := !t.completed }) ∧
    (∀ t : Todo, t.id ≠ i → toggleOne i t = t) := by
  refine ⟨?_, ?_, ?_, ?_, ?_, ?_⟩
  · rw [toggleTodo, toggleTodo, List.map_map]
    rw [List.map_id'' ?hpt]
    intro t
    obtain ⟨tid, ttext, tc⟩ := t
    by_cases h : tid = i <;> simp [toggleOne, h, Function.comp]
  · intro h
    rw [toggleTodo]
    rw [List.map_congr_left (g := fun t => t) ?hg, List.map_id']
    intro t ht
    simp [toggleOne, h t ht]
  · simp [toggleTodo]
  · intro j; simp [toggleTodo]
  · intro t ht; simp [toggleOne, ht]
  · intro t ht; simp [toggleOne, ht]

theorem toggleTodo_spec_witness :
    toggleTodo 7 [⟨1, "a", false⟩] = [⟨1, "a", false⟩] :=
  (toggleTodo_spec 7 [⟨1, "a", false⟩]).2.1 (by decide)

/-- Claim C6: with an active cursor, `commitEdit` rewrites the matching
task's text to the trimmed draft when that is non-empty, leaves the list
alone when it is empty, and clears the cursor either way. -/
theorem saveEdit_commit_spec (s : AppState) (eid : Int) (h : s.editingId = some eid) :
    (saveEdit s).editingId = none ∧ (saveEdit s).editingText = "" ∧
    (jsTrim s.editingText = "" → (saveEdit s).todos = s.todos) ∧
    (jsTrim s.editingText ≠ "" →
      (saveEdit s).todos.length = s.todos.length ∧
      ∀ j : Nat, (saveEdit s).todos[j]? =
        (s.todos[j]?).map
          (fun t => if t.id = eid then { t with text := jsTrim s.editingText } else t)) := by
  refine ⟨rfl, rfl, ?_, ?_⟩
  · intro he; simp [saveEdit, he]
  · intro he
    constructor
    · simp [saveEdit]
      split <;> simp
    · intro j
      simp only [saveEdit, h, he, ne_eq, not_false_eq_true, true_and]
      split
      · simp [List.getElem?_map]
      · simp_all

theorem saveEdit_commit_spec_witness :
    (saveEdit ⟨[⟨3, "x", false⟩], "", some 3, "  App launched  "⟩).editingId = none :=
  (saveEdit_commit_spec ⟨[⟨3, "x", false⟩], "", some 3, "  App launched  "⟩ 3 rfl).1

/-- Claim C10: a stale cursor (no matching task) with a non-blank draft:
`commitEdit` leaves the list unchanged and clears the cursor. -/
theorem saveEdit_stale_cursor_spec (s : AppState) (eid : Int)
    (h1 : s.editingId = some eid) (h2 : ∀ t ∈ s.todos, t.id ≠ eid)
    (h3 : jsTrim s.editingText ≠ "") :
    saveEdit s = { s with editingId := none, editingText := "" } := by
  have htodos : (saveEdit s).todos = s.todos := by
    simp only [saveEdit, h1, h3, ne_eq, not_false_eq_true, true_and]
    split
    · rw [List.map_congr_left (g := fun t => t) ?hg, List.map_id']
      intro t ht
      simp [h2 t ht]
    · rfl
  have : saveEdit s = { s with todos := (saveEdit s).todos, editingId := none, editingText := "" } := rfl
  rw [this, htodos]

theorem saveEdit_stale_cursor_spec_witness :
    saveEdit ⟨[⟨1, "a", false⟩], "", some 99, "x"⟩ =
      { todos := [⟨1, "a", false⟩], inputText := "", editingId := none, editingText := "" } :=
  saveEdit_stale_cursor_spec ⟨[⟨1, "a", false⟩], "", some 99, "x"⟩ 99 rfl (by decide) (by decide)

/-- Claim C7: `remove` filters out the matching id, preserves the order of
the rest, is a no-op on the list when the id is absent, is idempotent, and
clears the cursor exactly when the cursor holds the removed id. -/
theorem deleteTodo_spec (i : Int) (s : AppState) :
    (deleteTodo i s).todos = s.todos.filter (fun t => t.id ≠ i) ∧
    (deleteTodo i s).todos.Sublist s.todos ∧
    ((∀ t ∈ s.todos, t.id ≠ i) → (deleteTodo i s).todos = s.todos) ∧
    deleteTodo i (deleteTodo i s) = deleteTodo i s ∧
    (deleteTodo i s).editingId = (if s.editingId = some i then none else s.editingId) := by
  refine ⟨rfl, List.filter_sublist _, ?_, ?_, rfl⟩
  · intro h
    exact List.filter_eq_self.mpr fun t ht => by simpa using h t ht
  · by_cases h : s.editingId = some i <;>
      simp [deleteTodo, h, List.filter_filter, Bool.and_self]

theorem deleteTodo_spec_witness :
    (deleteTodo 99 ⟨defaultTodos, "", none, ""⟩).todos = defaultTodos :=
  (deleteTodo_spec 99 ⟨defaultTodos, "", none, ""⟩).2.2.1 (by decide)

/-- Claim C8: the move operations swap with the adjacent position and leave
every other position unchanged; `moveUp 0` and `moveDown` at the last index
are no-ops. -/
theorem move_spec (l : List Todo) (i : Nat) :
    moveTodoUp 0 l = l ∧
    moveTodoDown (l.length - 1) l = l ∧
    (0 < i → i < l.length →
      (moveTodoUp i l).length = l.length ∧
      ∀ j : Nat, (moveTodoUp i l)[j]? =
        if j = i - 1 then l[i]? else if j = i then l[i - 1]? else l[j]?) ∧
    (i + 1 < l.length →
      (moveTodoDown i l).length = l.length ∧
      ∀ j : Nat, (moveTodoDown i l)[j]? =
        if j = i then l[i + 1]? else if j = i + 1 then l[i]? else l[j]?) := by
  refine ⟨by simp [moveTodoUp], ?_, ?_, ?_⟩
  · have h : ¬ (l.length - 1 + 1 < l.length) := by omega
    simp [moveTodoDown, h]
  · intro h0 hi
    have h1 : i - 1 < l.length := by omega
    rw [moveTodoUp, if_pos h0, List.getElem?_eq_getElem h1, List.getElem?_eq_getElem hi]
    refine ⟨by simp, ?_⟩
    intro j
    by_cases hji : i = j
    · subst hji
      have hne : ¬ (i = i - 1) := by omega
      simp [List.getElem?_set, hi, List.getElem?_eq_getElem h1, hne]
    · by_cases hj1 : i - 1 = j
      · subst hj1
        simp [List.getElem?_set, hji, h1, hi, List.getElem?_eq_getElem hi]
      · have e1 : ¬ (j = i - 1) := fun hc => hj1 hc.symm
        have e2 : ¬ (j = i) := fun hc => hji hc.symm
        simp [List.getElem?_set, hji, hj1, e1, e2]
  · intro hi
    have h1 : i < l.length := by omega
    rw [moveTodoDown, if_pos hi, List.getElem?_eq_getElem h1, List.getElem?_eq_getElem hi]
    refine ⟨by simp, ?_⟩
    intro j
    by_cases hji : i = j
    · subst hji
      have hne : ¬ (i + 1 = i) := by omega
      simp [List.getElem?_set, hne, h1, hi, List.getElem?_eq_getElem hi]
    · by_cases hj1 : i + 1 = j
      · subst hj1
        simp [List.getElem?_set, hji, hi, List.getElem?_eq_getElem h1]
      · have e1 : ¬ (j = i) := fun hc => hji hc.symm
        have e2 : ¬ (j = i + 1) := fun hc => hj1 hc.symm
        simp [List.getElem?_set, hji, hj1, e1, e2]

theorem move_spec_witness :
    (moveTodoUp 1 [⟨1, "a", false⟩, ⟨2, "b", false⟩])[0]? =
      ([⟨1, "a", false⟩, ⟨2, "b", false⟩] : List Todo)[1]? := by
  have h := ((move_spec [⟨1, "a", false⟩, ⟨2, "b", false⟩] 1).2.2.1
    (by decide) (by decide)).2 0
  simpa using h

/-- A map whose function keeps ids keeps the id-uniqueness invariant. -/
theorem idsNodup_map_preserving (f : Todo → Todo) (hf : ∀ t, (f t).id = t.id)
    (l : List Todo) (h : IdsNodup l) : IdsNodup (l.map f) := by
  unfold IdsNodup at *
  rw [List.map_map]
  have hc : Todo.id ∘ f = Todo.id := funext hf
  rw [hc]
  exact h

/-- Amended claim C3: every operation preserves pairwise-distinct ids;
`add` preserves them provided its timestamp exceeds every id in the list. -/
theorem ops_preserve_IdsNodup (s : AppState) (now i : Int) (k : Nat) (txt : String)
    (h : IdsNodup s.todos) :
    ((∀ t ∈ s.todos, t.id < now) → IdsNodup (addTodo now s).todos) ∧
    IdsNodup (toggleTodo i s.todos) ∧
    IdsNodup (deleteTodo i s).todos ∧
    IdsNodup (moveTodoUp k s.todos) ∧
    IdsNodup (moveTodoDown k s.todos) ∧
    IdsNodup (saveEdit s).todos ∧
    IdsNodup (startEditing i txt s).todos ∧
    IdsNodup (cancelEdit s).todos ∧
    IdsNodup (clearAllTodos s).todos ∧
    IdsNodup (resetToDefault s).todos := by
  have hswap : ∀ (l : List Todo) (k : Nat), IdsNodup l → IdsNodup (moveTodoUp k l) := by
    intro l k hl
    unfold moveTodoUp
    split
    · rename_i hk0
      split
      · rename_i a b ha hb
        have hk : k - 1 + 1 = k := by omega
        have hperm : ((l.set (k - 1) b).set k a).Perm l := by
          have hp := set_swap_adjacent_perm l (k - 1) a b ha (by rwa [hk])
          rwa [hk] at hp
        exact ((hperm.map Todo.id).nodup_iff).mpr hl
      · exact hl
    · exact hl
  have hswap2 : ∀ (l : List Todo) (k : Nat), IdsNodup l → IdsNodup (moveTodoDown k l) := by
    intro l k hl
    unfold moveTodoDown
    split
    · rename_i hk0
      split
      · rename_i a b ha hb
        exact (((set_swap_adjacent_perm l k a b ha hb).map Todo.id).nodup_iff).mpr hl
      · exact hl
    · exact hl
  refine ⟨?_, ?_, ?_, hswap _ _ h, hswap2 _ _ h, ?_, h, h, ?_, ?_⟩
  · intro hlt
    unfold addTodo
    split
    · unfold IdsNodup
      simp only [List.map_append, List.map_cons, List.map_nil]
      rw [List.nodup_append]
      refine ⟨h, List.nodup_singleton _, ?_⟩
      intro a ha hb
      simp only [List.mem_map] at ha
      obtain ⟨t, ht, rfl⟩ := ha
      simp only [List.mem_singleton] at hb
      exact absurd hb (ne_of_lt (hlt t ht))
    · exact h
  · exact idsNodup_map_preserving _ (fun t => by unfold toggleOne; split <;> rfl) _ h
  · exact ((List.filter_sublist s.todos).map Todo.id).nodup h
  · show IdsNodup (if _ then _ else _)
    split
    · exact idsNodup_map_preserving _ (fun t => by split <;> rfl) _ h
    · exact h
  · simp [IdsNodup, clearAllTodos]
  · show IdsNodup defaultTodos
    decide

theorem ops_preserve_IdsNodup_witness :
    IdsNodup (addTodo 100 ⟨defaultTodos, "x", none, ""⟩).todos :=
  (ops_preserve_IdsNodup ⟨defaultTodos, "x", none, ""⟩ 100 0 0 "" (by decide)).1 (by decide)

/-- Claim C3 counterexample: two adds sharing one `Date.now()` millisecond
duplicate the id. -/
theorem duplicate_id_counterexample :
    IdsNodup [⟨5, "a", false⟩] ∧
    (addTodo 5 ⟨[⟨5, "a", false⟩], "b", none, ""⟩).todos.map Todo.id = [5, 5] ∧
    ¬ IdsNodup (addTodo 5 ⟨[⟨5, "a", false⟩], "b", none, ""⟩).todos :=
  ⟨by decide, by decide, by decide⟩

/-! ## Round-trip of the JSON encoding -/

/-- Escaping never shortens: at least one character per source character. -/
theorem escapeList_length_ge (cs : List Char) : cs.length ≤ (escapeList cs).length := by
  induction cs with
  | nil => simp [escapeList]
  | cons c cs ih =>
    have hc : 1 ≤ (escChar c).length := by
      unfold escChar
      repeat' split
      all_goals simp
    simp only [escapeList, List.length_append, List.length_cons]
    omega

/-- `hexVal` inverts `hexDigitChar` on nibbles. -/
theorem hexVal_hexDigitChar : ∀ d, d < 16 → hexVal (hexDigitChar d) = some d := by decide

/-- Parsing undoes escaping, given one fuel unit per source character. -/
theorem parseStringBody_escape (cs : List Char) : ∀ (fuel : Nat) (rest : List Char),
    cs.length < fuel →
    parseStringBody fuel (escapeList cs ++ (quoteChar :: rest)) = some (cs, rest) := by
  induction cs with
  | nil =>
    intro fuel rest hf
    obtain ⟨f, rfl⟩ : ∃ f, fuel = f + 1 := ⟨fuel - 1, by omega⟩
    simp [escapeList, parseStringBody]
  | cons c cs ih =>
    intro fuel rest hf
    obtain ⟨f, rfl⟩ : ∃ f, fuel = f + 1 := ⟨fuel - 1, by omega⟩
    have hf' : cs.length < f := by simpa using hf
    by_cases h1 : c = quoteChar
    · subst h1
      simp only [escapeList, escChar]
      simp [parseStringBody, unescChar, ih f rest hf',
        show ¬ (backslashChar = quoteChar) by decide,
        show ¬ (quoteChar = 'u') by decide]
    · by_cases h2 : c = backslashChar
      · subst h2
        simp only [escapeList, escChar]
        simp [parseStringBody, unescChar, ih f rest hf',
          show ¬ (backslashChar = quoteChar) by decide,
          show ¬ (backslashChar = 'u') by decide]
      · by_cases h3 : c.toNat < 32
        · have hq : ¬ c = quoteChar := fun hc => by rw [hc] at h3; exact absurd h3 (by decide)
          have hb : ¬ c = backslashChar := fun hc => by rw [hc] at h3; exact absurd h3 (by decide)
          by_cases hn : c = '\n'
          · subst hn
            rw [show escapeList ('\n' :: cs) = backslashChar :: 'n' :: escapeList cs from by
              simp [escapeList, show escChar '\n' = [backslashChar, 'n'] from by decide]]
            simp [parseStringBody, unescChar, ih f rest hf',
              show ¬ (backslashChar = quoteChar) by decide,
              show ¬ ('n' = 'u') by decide,
              show ¬ ('n' = quoteChar) by decide,
              show ¬ ('n' = backslashChar) by decide,
              show ¬ ('n' = '/') by decide]
          · by_cases ht : c = '\t'
            · subst ht
              rw [show escapeList ('\t' :: cs) = backslashChar :: 't' :: escapeList cs from by
                simp [escapeList, show escChar '\t' = [backslashChar, 't'] from by decide]]
              simp [parseStringBody, unescChar, ih f rest hf',
                show ¬ (backslashChar = quoteChar) by decide,
                show ¬ ('t' = 'u') by decide,
                show ¬ ('t' = quoteChar) by decide,
                show ¬ ('t' = backslashChar) by decide,
                show ¬ ('t' = '/') by decide,
                show ¬ ('t' = 'n') by decide]
            · by_cases hr : c = '\r'
              · subst hr
                rw [show escapeList ('\r' :: cs) = backslashChar :: 'r' :: escapeList cs from by
                  simp [escapeList, show escChar '\r' = [backslashChar, 'r'] from by decide]]
                simp [parseStringBody, unescChar, ih f rest hf',
                  show ¬ (backslashChar = quoteChar) by decide,
                  show ¬ ('r' = 'u') by decide,
                  show ¬ ('r' = quoteChar) by decide,
                  show ¬ ('r' = backslashChar) by decide,
                  show ¬ ('r' = '/') by decide,
                  show ¬ ('r' = 'n') by decide,
                  show ¬ ('r' = 't') by decide]
              · by_cases h8 : c.toNat = 8
                · have hc8 : c = Char.ofNat 8 := by rw [← Char.ofNat_toNat c, h8]
                  subst hc8
                  rw [show escapeList (Char.ofNat 8 :: cs)
                        = backslashChar :: 'b' :: escapeList cs from by
                    simp [escapeList,
                      show escChar (Char.ofNat 8) = [backslashChar, 'b'] from by decide]]
                  simp [parseStringBody, unescChar, ih f rest hf',
                    show ¬ (backslashChar = quoteChar) by decide,
                    show ¬ ('b' = 'u') by decide,
                    show ¬ ('b' = quoteChar) by decide,
                    show ¬ ('b' = backslashChar) by decide,
                    show ¬ ('b' = '/') by decide,
                    show ¬ ('b' = 'n') by decide,
                    show ¬ ('b' = 't') by decide,
                    show ¬ ('b' = 'r') by decide]
                · by_cases h12 : c.toNat = 12
                  · have hc12 : c = Char.ofNat 12 := by rw [← Char.ofNat_toNat c, h12]
                    subst hc12
                    rw [show escapeList (Char.ofNat 12 :: cs)
                          = backslashChar :: 'f' :: escapeList cs from by
                      simp [escapeList,
                        show escChar (Char.ofNat 12) = [backslashChar, 'f'] from by decide]]
                    simp [parseStringBody, unescChar, ih f rest hf',
                      show ¬ (backslashChar = quoteChar) by decide,
                      show ¬ ('f' = 'u') by decide,
                      show ¬ ('f' = quoteChar) by decide,
                      show ¬ ('f' = backslashChar) by decide,
                      show ¬ ('f' = '/') by decide,
                      show ¬ ('f' = 'n') by decide,
                      show ¬ ('f' = 't') by decide,
                      show ¬ ('f' = 'r') by decide,
                      show ¬ ('f' = 'b') by decide]
                  · have hesc : escChar c = [backslashChar, 'u', '0', '0',
                        hexDigitChar (c.toNat / 16), hexDigitChar (c.toNat % 16)] := by
                      unfold escChar
                      rw [if_neg hq, if_neg hb, if_pos h3, if_neg hn, if_neg ht, if_neg hr,
                        if_neg h8, if_neg h12]
                    rw [show escapeList (c :: cs) = backslashChar :: 'u' :: '0' :: '0' ::
                          hexDigitChar (c.toNat / 16) :: hexDigitChar (c.toNat % 16) ::
                          escapeList cs from by simp [escapeList, hesc]]
                    simp [parseStringBody, ih f rest hf',
                      show ¬ (backslashChar = quoteChar) by decide,
                      show hexVal '0' = some 0 from by decide,
                      hexVal_hexDigitChar (c.toNat / 16) (by omega),
                      hexVal_hexDigitChar (c.toNat % 16) (by omega),
                      show ((0 * 16 + 0) * 16 + c.toNat / 16) * 16 + c.toNat % 16
                        = c.toNat from by omega,
                      show c.toNat / 16 * 16 + c.toNat % 16 = c.toNat from by omega,
                      Char.ofNat_toNat]
        · have heq : escChar c = [c] := by unfold escChar; rw [if_neg h1, if_neg h2, if_neg h3]
          rw [show escapeList (c :: cs) = c :: escapeList cs from by simp [escapeList, heq]]
          simp [parseStringBody, h1, h2, ih f rest hf']

/-- Facts about decimal digit characters, decided once. -/
theorem digitChar_facts : ∀ d, d < 10 →
    ((digitChar d).isDigit = true ∧ charDigitVal (digitChar d) = d ∧
     digitChar d ≠ 'n' ∧ digitChar d ≠ 't' ∧ digitChar d ≠ 'f' ∧
     digitChar d ≠ quoteChar ∧ digitChar d ≠ '[' ∧ digitChar d ≠ lbraceChar ∧
     digitChar d ≠ '-' ∧ (d ≠ 0 → digitChar d ≠ '0')) := by decide

/-- Every character of a printed numeral is a digit. -/
theorem printNat_all_digits (n : Nat) : ∀ c ∈ printNat n, c.isDigit = true := by
  intro c hc
  unfold printNat at hc
  split at hc
  · simp only [List.mem_singleton] at hc
    subst hc
    decide
  · simp only [List.mem_map, List.mem_reverse] at hc
    obtain ⟨d, hd, rfl⟩ := hc
    exact (digitChar_facts d (Nat.digits_lt_base (by norm_num) hd)).1

/-- `takeWhile`/`dropWhile` split an append at the first failing head. -/
theorem takeWhile_append_all {p : Char → Bool} (l rest : List Char)
    (hall : ∀ c ∈ l, p c = true) (hrest : headFails p rest) :
    (l ++ rest).takeWhile p = l ∧ (l ++ rest).dropWhile p = rest := by
  induction l with
  | nil =>
    simp only [List.nil_append]
    cases rest with
    | nil => simp
    | cons c cs =>
      have hc := hrest c rfl
      simp [List.takeWhile_cons, List.dropWhile_cons, hc]
  | cons c l ih =>
    have hc := hall c (by simp)
    have ih' := ih (fun x hx => hall x (by simp [hx]))
    simp [List.takeWhile_cons, List.dropWhile_cons, hc, ih'.1, ih'.2]

/-- Folding the printed digits back, most significant first. -/
theorem foldl_digitChar : ∀ (ds : List Nat), (∀ d ∈ ds, d < 10) → ∀ (acc : Nat),
    List.foldl (fun a c => a * 10 + charDigitVal c) acc (ds.reverse.map digitChar)
      = acc * 10 ^ ds.length + Nat.ofDigits 10 ds := by
  intro ds
  induction ds with
  | nil => intro _ acc; simp
  | cons d tl ih =>
    intro hds acc
    have hd : d < 10 := hds d (by simp)
    have htl : ∀ x ∈ tl, x < 10 := fun x hx => hds x (by simp [hx])
    simp only [List.reverse_cons, List.map_append, List.map_cons, List.map_nil,
      List.foldl_append, List.foldl_cons, List.foldl_nil]
    rw [ih htl acc, (digitChar_facts d hd).2.1, Nat.ofDigits_cons, List.length_cons,
      pow_succ]
    ring

/-- Reading a printed numeral back. -/
theorem charsToNat_printNat (n : Nat) : charsToNat (printNat n) = n := by
  unfold printNat
  split
  · rename_i hn
    subst hn
    decide
  · rename_i hn
    unfold charsToNat
    rw [foldl_digitChar (Nat.digits 10 n) (fun d hd => Nat.digits_lt_base (by norm_num) hd) 0]
    simp [Nat.ofDigits_digits]

/-- Parsing a printed natural numeral consumes exactly the numeral. -/
theorem parseNatNum_print (n : Nat) (rest : List Char) (hrest : headFails Char.isDigit rest) :
    parseNatNum (printNat n ++ rest) = some (n, rest) := by
  by_cases hn : n = 0
  · subst hn
    show parseNatNum ('0' :: rest) = some (0, rest)
    simp [parseNatNum]
  · have hne : Nat.digits 10 n ≠ [] := Nat.digits_ne_nil_iff_ne_zero.mpr hn
    have hd0 : (Nat.digits 10 n).getLast hne ≠ 0 := Nat.getLast_digit_ne_zero 10 hn
    have hd0lt : (Nat.digits 10 n).getLast hne < 10 :=
      Nat.digits_lt_base (by norm_num) (List.getLast_mem hne)
    obtain ⟨tl, htl⟩ : ∃ tl, (Nat.digits 10 n).reverse
        = (Nat.digits 10 n).getLast hne :: tl := by
      cases hrev : (Nat.digits 10 n).reverse with
      | nil => exact absurd (List.reverse_eq_nil_iff.mp hrev) hne
      | cons x tl =>
        refine ⟨tl, ?_⟩
        have h1 : (Nat.digits 10 n).reverse.head? = some x := by rw [hrev]; rfl
        rw [List.head?_reverse, List.getLast?_eq_getLast _ hne] at h1
        rw [Option.some.injEq] at h1
        rw [h1]
    have hprint : printNat n = digitChar ((Nat.digits 10 n).getLast hne)
        :: tl.map digitChar := by
      unfold printNat
      rw [if_neg hn, htl, List.map_cons]
    have hfacts := digitChar_facts _ hd0lt
    have hsplit := takeWhile_append_all (printNat n) rest (printNat_all_digits n) hrest
    rw [hprint] at hsplit
    rw [hprint, List.cons_append, parseNatNum]
    rw [if_neg ((hfacts.2.2.2.2.2.2.2.2.2 hd0)), if_pos hfacts.1]
    rw [← List.cons_append, hsplit.1, hsplit.2, ← hprint, charsToNat_printNat]

/-- A printed numeral starts with a digit character. -/
theorem printNat_head (n : Nat) : ∃ d cs, d < 10 ∧ printNat n = digitChar d :: cs := by
  by_cases hn : n = 0
  · exact ⟨0, [], by norm_num, by subst hn; decide⟩
  · have hne : Nat.digits 10 n ≠ [] := Nat.digits_ne_nil_iff_ne_zero.mpr hn
    have hd0lt : (Nat.digits 10 n).getLast hne < 10 :=
      Nat.digits_lt_base (by norm_num) (List.getLast_mem hne)
    obtain ⟨tl, htl⟩ : ∃ tl, (Nat.digits 10 n).reverse
        = (Nat.digits 10 n).getLast hne :: tl := by
      cases hrev : (Nat.digits 10 n).reverse with
      | nil => exact absurd (List.reverse_eq_nil_iff.mp hrev) hne
      | cons x tl =>
        refine ⟨tl, ?_⟩
        have h1 : (Nat.digits 10 n).reverse.head? = some x := by rw [hrev]; rfl
        rw [List.head?_reverse, List.getLast?_eq_getLast _ hne] at h1
        rw [Option.some.injEq] at h1
        rw [h1]
    refine ⟨(Nat.digits 10 n).getLast hne, tl.map digitChar, hd0lt, ?_⟩
    unfold printNat
    rw [if_neg hn, htl, List.map_cons]

/-- Parsing a printed boolean. -/
theorem parseValue_print_bool (b : Bool) (fuel : Nat) (rest : List Char) :
    parseValue (fuel + 1) (printValue (.bool b) ++ rest) = some (.bool b, rest) := by
  cases b <;>
    simp [printValue, litTrue, litFalse, parseValue, show ¬ ('t' = 'n') by decide,
      show ¬ ('f' = 'n') by decide, show ¬ ('f' = 't') by decide]

/-- Parsing a printed string literal. -/
theorem parseValue_print_str (s : String) (fuel : Nat) (rest : List Char) :
    parseValue (fuel + 1) (printValue (.str s) ++ rest) = some (.str s, rest) := by
  have hlen : s.data.length < (escapeList s.data ++ (quoteChar :: rest)).length + 1 := by
    have := escapeList_length_ge s.data
    simp only [List.length_append, List.length_cons]
    omega
  simp only [printValue, printString, List.cons_append, List.append_assoc,
    List.singleton_append]
  simp only [parseValue, show ¬ (quoteChar = 'n') by decide,
    show ¬ (quoteChar = 't') by decide, show ¬ (quoteChar = 'f') by decide,
    ite_false, ite_true, if_neg, if_pos rfl, List.nil_append]
  rw [parseStringBody_escape s.data _ rest hlen]

/-- Parsing a printed integer numeral. -/
theorem parseValue_print_int (n : Int) (fuel : Nat) (rest : List Char)
    (hrest : headFails Char.isDigit rest) :
    parseValue (fuel + 1) (printInt n ++ rest) = some (.num n, rest) := by
  unfold printInt
  split
  · rename_i hneg
    simp only [List.cons_append]
    simp only [parseValue, show ¬ ('-' = 'n') by decide, show ¬ ('-' = 't') by decide,
      show ¬ ('-' = 'f') by decide, show ¬ ('-' = quoteChar) by decide,
      show ¬ ('-' = '[') by decide, show ¬ ('-' = lbraceChar) by decide,
      ite_false, ite_true, if_neg, if_pos rfl]
    rw [parseNatNum_print n.natAbs rest hrest]
    have hval : -(n.natAbs : Int) = n := by omega
    show some (Json.num (-(n.natAbs : Int)), rest) = some (Json.num n, rest)
    rw [hval]
  · rename_i hneg
    obtain ⟨d, cs, hd, hp⟩ := printNat_head n.natAbs
    have hfacts := digitChar_facts d hd
    rw [hp, List.cons_append]
    simp only [parseValue]
    rw [if_neg hfacts.2.2.1, if_neg hfacts.2.2.2.1, if_neg hfacts.2.2.2.2.1,
      if_neg hfacts.2.2.2.2.2.1, if_neg hfacts.2.2.2.2.2.2.1,
      if_neg hfacts.2.2.2.2.2.2.2.1, if_neg hfacts.2.2.2.2.2.2.2.2.1,
      if_pos hfacts.1]
    rw [← List.cons_append, ← hp, parseNatNum_print n.natAbs rest hrest]
    have hval : ((n.natAbs : Nat) : Int) = n := by omega
    show some (Json.num ((n.natAbs : Nat) : Int), rest) = some (Json.num n, rest)
    rw [hval]

/-- One object member with printed key: reduce to parsing the value and the
remaining members. -/
theorem parseMembers_print_step (fuel : Nat) (k : String) (valrest : List Char) :
    parseMembers (fuel + 1) (printString k ++ (':' :: valrest))
      = (match parseValue fuel valrest with
         | some (v, r3) =>
           (match parseMembersTail fuel r3 with
            | some (tl, r4) => some (JsonMembers.cons k v tl, r4)
            | none => none)
         | none => none) := by
  have hlen : k.data.length < (escapeList k.data ++ (quoteChar :: ':' :: valrest)).length + 1 := by
    have := escapeList_length_ge k.data
    simp only [List.length_append, List.length_cons]
    omega
  simp only [printString, List.cons_append, List.append_assoc, List.singleton_append]
  simp only [parseMembers, show ¬ (quoteChar = rbraceChar) by decide, ite_false, ite_true,
    if_neg, if_pos rfl, List.nil_append]
  rw [parseStringBody_escape k.data _ _ hlen]
  rfl

/-- As `parseMembers_print_step`, after a comma. -/
theorem parseMembersTail_print_step (fuel : Nat) (k : String) (valrest : List Char) :
    parseMembersTail (fuel + 1) (',' :: (printString k ++ (':' :: valrest)))
      = (match parseValue fuel valrest with
         | some (v, r3) =>
           (match parseMembersTail fuel r3 with
            | some (tl, r4) => some (JsonMembers.cons k v tl, r4)
            | none => none)
         | none => none) := by
  have hlen : k.data.length < (escapeList k.data ++ (quoteChar :: ':' :: valrest)).length + 1 := by
    have := escapeList_length_ge k.data
    simp only [List.length_append, List.length_cons]
    omega
  simp only [printString, List.cons_append, List.append_assoc, List.singleton_append]
  simp only [parseMembersTail, show ¬ (',' = rbraceChar) by decide,
    show ¬ (quoteChar = rbraceChar) by decide, ite_false, ite_true, if_neg, if_pos rfl,
    List.nil_append]
  rw [parseStringBody_escape k.data _ _ hlen]
  rfl

/-- The closing brace ends the member list. -/
theorem parseMembersTail_close (fuel : Nat) (rest : List Char) :
    parseMembersTail (fuel + 1) (rbraceChar :: rest) = some (.nil, rest) := by
  simp [parseMembersTail]

/-- Combined member step: known value and tail parses give the member parse. -/
theorem parseMembers_print_done (fuel : Nat) (k : String) (valrest r3 r4 : List Char)
    (v : Json) (tl : JsonMembers)
    (hv : parseValue fuel valrest = some (v, r3))
    (htl : parseMembersTail fuel r3 = some (tl, r4)) :
    parseMembers (fuel + 1) (printString k ++ (':' :: valrest))
      = some (JsonMembers.cons k v tl, r4) := by
  simp only [parseMembers_print_step, hv, htl]

/-- Combined member step after a comma. -/
theorem parseMembersTail_print_done (fuel : Nat) (k : String) (valrest r3 r4 : List Char)
    (v : Json) (tl : JsonMembers)
    (hv : parseValue fuel valrest = some (v, r3))
    (htl : parseMembersTail fuel r3 = some (tl, r4)) :
    parseMembersTail (fuel + 1) (',' :: (printString k ++ (':' :: valrest)))
      = some (JsonMembers.cons k v tl, r4) := by
  simp only [parseMembersTail_print_step, hv, htl]

/-- Parsing a printed todo object. -/
theorem parseValue_print_todo (t : Todo) (fuel : Nat) (rest : List Char) :
    parseValue (fuel + 5) (printValue (todoToJson t) ++ rest) = some (todoToJson t, rest) := by
  have m3 : parseMembersTail (fuel + 2)
      (',' :: (printString "completed" ++ (':' ::
        (printValue (Json.bool t.completed) ++ rbraceChar :: rest))))
      = some (JsonMembers.cons "completed" (Json.bool t.completed) .nil, rest) :=
    parseMembersTail_print_done (fuel + 1) "completed" _ _ _ _ _
      (parseValue_print_bool t.completed fuel (rbraceChar :: rest))
      (parseMembersTail_close fuel rest)
  have m2 : parseMembersTail (fuel + 3)
      (',' :: (printString "text" ++ (':' :: (printString t.text ++
        ',' :: (printString "completed" ++ (':' ::
          (printValue (Json.bool t.completed) ++ rbraceChar :: rest)))))))
      = some (JsonMembers.cons "text" (Json.str t.text)
          (JsonMembers.cons "completed" (Json.bool t.completed) .nil), rest) :=
    parseMembersTail_print_done (fuel + 2) "text" _ _ _ _ _
      (parseValue_print_str t.text (fuel + 1) _)
      m3
  have m1 : parseMembers (fuel + 4)
      (printString "id" ++ (':' :: (printInt t.id ++
        ',' :: (printString "text" ++ (':' :: (printString t.text ++
          ',' :: (printString "completed" ++ (':' ::
            (printValue (Json.bool t.completed) ++ rbraceChar :: rest)))))))))
      = some (JsonMembers.cons "id" (Json.num t.id)
          (JsonMembers.cons "text" (Json.str t.text)
            (JsonMembers.cons "completed" (Json.bool t.completed) .nil)), rest) :=
    parseMembers_print_done (fuel + 3) "id" _ _ _ _ _
      (parseValue_print_int t.id (fuel + 2) _ (by
        intro c hc
        simp only [List.head?_cons, Option.some.injEq] at hc
        subst hc
        decide))
      m2
  have hobj : ∀ m, printValue (Json.obj m) = lbraceChar :: (printMembers m ++ [rbraceChar]) :=
    fun m => by simp only [printValue]
  have hnum : ∀ n, printValue (Json.num n) = printInt n := fun n => by simp only [printValue]
  have hstr : ∀ s, printValue (Json.str s) = printString s := fun s => by simp only [printValue]
  simp only [todoToJson, hobj, hnum, hstr, printMembers, printMembersSep, List.append_nil,
    List.cons_append, List.append_assoc, List.singleton_append, List.nil_append]
  simp only [show (fuel + 5 : Nat) = (fuel + 4) + 1 from rfl, parseValue,
    show ¬ (lbraceChar = 'n') by decide, show ¬ (lbraceChar = 't') by decide,
    show ¬ (lbraceChar = 'f') by decide, show ¬ (lbraceChar = quoteChar) by decide,
    show ¬ (lbraceChar = '[') by decide, ite_false, ite_true, if_neg, if_pos rfl]
  rw [m1]

/-- Parsing the tail of a printed todo array. -/
theorem parseElemsTail_print_todos (ts : List Todo) : ∀ (fuel : Nat) (rest : List Char),
    6 * ts.length + 1 ≤ fuel →
    parseElemsTail fuel (printElemsSep (listToJsonList ts) ++ (']' :: rest))
      = some (listToJsonList ts, rest) := by
  induction ts with
  | nil =>
    intro fuel rest hf
    obtain ⟨f, rfl⟩ : ∃ f, fuel = f + 1 := ⟨fuel - 1, by omega⟩
    simp [listToJsonList, printElemsSep, parseElemsTail]
  | cons t ts ih =>
    intro fuel rest hf
    simp only [List.length_cons] at hf
    obtain ⟨f, rfl⟩ : ∃ f, fuel = f + 6 := ⟨fuel - 6, by omega⟩
    simp only [listToJsonList, printElemsSep, List.cons_append, List.append_assoc]
    simp only [show (f + 6 : Nat) = (f + 5) + 1 from rfl, parseElemsTail,
      show ¬ (',' = ']') by decide, ite_true, ite_false, if_neg, if_pos rfl]
    simp only [parseValue_print_todo t f, ih (f + 5) rest (by omega)]

/-- The separated tail is at least one character per element. -/
theorem printElemsSep_length_ge (ts : List Todo) :
    ts.length ≤ (printElemsSep (listToJsonList ts)).length := by
  induction ts with
  | nil => simp [listToJsonList, printElemsSep]
  | cons t ts ih =>
    simp only [listToJsonList, printElemsSep, List.length_cons, List.length_append]
    omega

/-- Parsing a whole printed todo array. -/
theorem parseValue_print_tasks (ts : List Todo) (fuel : Nat) (rest : List Char)
    (hf : 6 * ts.length + 7 ≤ fuel) :
    parseValue fuel (printValue (tasksToJson ts) ++ rest) = some (tasksToJson ts, rest) := by
  obtain ⟨f, rfl⟩ : ∃ f, fuel = f + 2 := ⟨fuel - 2, by omega⟩
  have harr : printValue (tasksToJson ts)
      = '[' :: (printElems (listToJsonList ts) ++ [']']) := by
    simp only [tasksToJson, printValue]
  rw [harr]
  simp only [List.cons_append, List.append_assoc, List.singleton_append]
  simp only [show (f + 2 : Nat) = (f + 1) + 1 from rfl, parseValue,
    show ¬ ('[' = 'n') by decide, show ¬ ('[' = 't') by decide,
    show ¬ ('[' = 'f') by decide, show ¬ ('[' = quoteChar) by decide,
    ite_false, ite_true, if_neg, if_pos rfl]
  cases ts with
  | nil => simp [listToJsonList, printElems, parseElems, tasksToJson]
  | cons t ts =>
    simp only [List.length_cons] at hf
    simp only [listToJsonList, printElems, List.append_assoc]
    have hcs : printValue (todoToJson t) = lbraceChar ::
        (printMembers (JsonMembers.cons "id" (Json.num t.id)
          (JsonMembers.cons "text" (Json.str t.text)
            (JsonMembers.cons "completed" (Json.bool t.completed) JsonMembers.nil)))
          ++ [rbraceChar]) := by
      simp only [todoToJson, printValue]
    rw [hcs, List.cons_append]
    simp only [parseElems, show ¬ (lbraceChar = ']') by decide, ite_false, if_neg]
    rw [← List.cons_append, ← hcs]
    obtain ⟨g, rfl⟩ : ∃ g, f = g + 5 := ⟨f - 5, by omega⟩
    simp only [parseValue_print_todo t g, List.nil_append]
    rw [parseElemsTail_print_todos ts (g + 5) rest (by omega)]
    simp [tasksToJson, listToJsonList]

/-- The printed array is at least one character per task. -/
theorem printValue_tasks_length_ge (ts : List Todo) :
    ts.length ≤ (printValue (tasksToJson ts)).length := by
  have harr : printValue (tasksToJson ts)
      = '[' :: (printElems (listToJsonList ts) ++ [']']) := by
    simp only [tasksToJson, printValue]
  rw [harr]
  cases ts with
  | nil => simp
  | cons t ts =>
    have := printElemsSep_length_ge ts
    simp only [listToJsonList, printElems, List.length_cons, List.length_append,
      List.length_singleton]
    omega

/-- `JSON.parse` undoes `JSON.stringify` on an encoded task list. -/
theorem parseJson_encodeTasks (ts : List Todo) :
    parseJson (encodeTasks ts) = some (tasksToJson ts) := by
  unfold parseJson encodeTasks stringifyJson
  have hdata : (String.mk (printValue (tasksToJson ts))).data
      = printValue (tasksToJson ts) := rfl
  rw [hdata]
  have hlen : 6 * ts.length + 7 ≤ 10 * (printValue (tasksToJson ts)).length + 10 := by
    have := printValue_tasks_length_ge ts
    omega
  have key := parseValue_print_tasks ts _ [] hlen
  rw [List.append_nil] at key
  rw [key]

/-- The typed reading undoes the element encoding. -/
theorem todosFromJsonList_listToJsonList (ts : List Todo) :
    todosFromJsonList (listToJsonList ts) = some ts := by
  induction ts with
  | nil => rfl
  | cons t ts ih =>
    have ht : todoFromJson (todoToJson t) = some t := by
      simp [todoToJson, todoFromJson]
    simp only [listToJsonList, todosFromJsonList, ht, ih]

/-- The typed reading undoes the task-list encoding. -/
theorem tasksFromJson_roundtrip (ts : List Todo) :
    tasksFromJson (tasksToJson ts) = some ts := by
  simp [tasksFromJson, tasksToJson, todosFromJsonList_listToJsonList]

/-- Claim C9: decoding the encoded persisted payload yields the original
list, ids, texts, completed flags and order included. -/
theorem decode_encode_roundtrip (ts : List Todo) :
    decodeTasks (encodeTasks ts) = some ts ∧
    parseJson (encodeTasks ts) = some (tasksToJson ts) ∧
    tasksFromJson (tasksToJson ts) = some ts := by
  refine ⟨?_, parseJson_encodeTasks ts, tasksFromJson_roundtrip ts⟩
  unfold decodeTasks
  rw [parseJson_encodeTasks ts]
  simp [tasksFromJson_roundtrip ts]

/-- Claim C1 counterexample: the payload `42` parses, has the wrong shape
for a task list, and is loaded verbatim — not replaced by the default
list. -/
theorem load_wrong_shape_counterexample :
    parseJson "42" = some (.num 42) ∧
    tasksFromJson (.num 42) = none ∧
    loadResult (some "42") = .num 42 ∧
    ¬ loadResult (some "42") = tasksToJson defaultTodos :=
  ⟨by decide, by decide, by decide, by decide⟩

/-- Amended claim C1: the load falls back to the three-item default list
exactly when the payload is absent or unparseable (the failure is recovered
locally, `loadResult` is total); a parseable payload is loaded verbatim, with
no shape validation. -/
theorem loadResult_spec (s : String) :
    loadResult none = tasksToJson defaultTodos ∧
    (parseJson s = none → loadResult (some s) = tasksToJson defaultTodos) ∧
    (∀ j, parseJson s = some j → loadResult (some s) = j) := by
  refine ⟨rfl, ?_, ?_⟩
  · intro h; simp [loadResult, h]
  · intro j h; simp [loadResult, h]

theorem loadResult_spec_witness :
    loadResult (some "[") = tasksToJson defaultTodos :=
  (loadResult_spec "[").2.1 (by decide)

/-- Claim C4: the persistence effect never fires before the load completes
(first conjunct: the pre-load render writes nothing), and after the mount and
after every processed intent the storage holds the serialization of the
current list — written before the next intent is accepted, since `stepEvent`
completes it within the step — so a fresh load decodes exactly the current
list.  `storageOk` confines the statement to payloads the typed state can
represent (see its doc comment). -/
theorem session_persistence (st : Option String) (events : List Event)
    (hok : storageOk st = true) :
    persistEffect (initialSession st) = initialSession st ∧
    (runSession st events).isLoaded = true ∧
    (runSession st events).storage
      = some (encodeTasks (runSession st events).state.todos) ∧
    loadedTodos (runSession st events).storage
      = (runSession st events).state.todos := by
  have hinv : ∀ (evs : List Event) (sess : Session),
      sess.isLoaded = true →
      sess.storage = some (encodeTasks sess.state.todos) →
      (evs.foldl stepEvent sess).isLoaded = true ∧
      (evs.foldl stepEvent sess).storage
        = some (encodeTasks (evs.foldl stepEvent sess).state.todos) := by
    intro evs
    induction evs with
    | nil => intro sess h1 h2; exact ⟨h1, h2⟩
    | cons e evs ih =>
      intro sess h1 h2
      refine ih (stepEvent sess e) ?_ ?_
      · simp [stepEvent, persistEffect, h1]
      · simp [stepEvent, persistEffect, h1]
  have hmount1 : persistEffect (initialSession st) = initialSession st := by
    simp [persistEffect, initialSession]
  have hmount : (mount st).isLoaded = true ∧
      (mount st).storage = some (encodeTasks (mount st).state.todos) := by
    simp [mount, hmount1, loadEffect, persistEffect, initialSession]
  have hload : ∀ l : List Todo, loadedTodos (some (encodeTasks l)) = l := by
    intro l
    simp only [loadedTodos, parseJson_encodeTasks l, tasksFromJson_roundtrip l,
      Option.getD_some]
  have hrun := hinv events (mount st) hmount.1 hmount.2
  simp only [runSession]
  refine ⟨hmount1, hrun.1, hrun.2, ?_⟩
  rw [hrun.2, hload]

theorem session_persistence_witness :
    loadedTodos (runSession none [Event.input "x", Event.add 7]).storage
      = (runSession none [Event.input "x", Event.add 7]).state.todos :=
  (session_persistence none [Event.input "x", Event.add 7] rfl).2.2.2
